import Mathlib

/-!
Verification of the debate-judge core against its source.

The definitions below are shallow embeddings of the TypeScript source:
machine numbers are modelled by exact rationals and naturals, JavaScript
objects by association lists that preserve insertion order, fallible or
external calls by explicit parameters and `Except`.
-/

namespace DebateJudge

/- The Batteries rational primitives are marked irreducible, which only
blocks unfolding during elaboration; restoring reducibility lets
`decide` evaluate the exact score arithmetic below. -/
attribute [local semireducible] Rat.mul Rat.add Rat.inv Rat.sub

/-! ## JSON values and `JSON.stringify` with an array replacer

Models the data reachable from a `CouncilVerdict` and the exact
serialization performed by `hashVerdict` in the signer module, namely
`JSON.stringify(verdict, Object.keys(verdict).sort())`.  Per ECMA-262,
an array second argument to `JSON.stringify` is a property list: at
EVERY object level only the listed keys are serialized, in property-list
order.  Numbers carry exact rationals; number rendering is exercised in
this development only at integral values, which JavaScript prints with
no fractional part. -/

inductive JVal where
  | str (s : String)
  | num (q : ℚ)
  | bool (b : Bool)
  | arr (elems : List JVal)
  | obj (fields : List (String × JVal))

/-- Lower-case hex digit, used by the JSON control-character escape. -/
def hexDigit (n : Nat) : Char :=
  if n < 10 then Char.ofNat (48 + n) else Char.ofNat (87 + n)

/-- Escape one character as ECMA-262 QuoteJSONString does.  Character
codes are written numerically: 34 is the double quote, 92 the
backslash. -/
def jsonEscapeChar (c : Char) : String :=
  let n := c.toNat
  if n = 34 then "\\\""
  else if n = 92 then "\\\\"
  else if n = 8 then "\\b"
  else if n = 9 then "\\t"
  else if n = 10 then "\\n"
  else if n = 12 then "\\f"
  else if n = 13 then "\\r"
  else if n < 32 then
    String.mk [Char.ofNat 92, Char.ofNat 117, Char.ofNat 48, Char.ofNat 48,
      hexDigit (n / 16), hexDigit (n % 16)]
  else String.singleton c

/-- JSON string literal with quotes and escapes. -/
def jsonQuote (s : String) : String :=
  "\"" ++ String.join (s.toList.map jsonEscapeChar) ++ "\""

/-- Render a JSON number.  All values rendered in this development are
integers, which JavaScript prints in plain decimal. -/
def renderNum (q : ℚ) : String :=
  if q.den = 1 then toString q.num else toString q

/-- The fields of an object that the property list selects, in property
list order, as ECMA-262 SerializeJSONObject does when `JSON.stringify`
receives an array replacer. -/
def selectProps (props : List String) (fields : List (String × JVal)) :
    List (String × JVal) :=
  props.filterMap (fun k => (List.lookup k fields).map (fun v => (k, v)))

/-- `JSON.stringify(value, props)` with an array replacer `props`:
strings are quoted, arrays serialize every element, and every object
level keeps only the keys in `props`, in `props` order.  The recursion
is made structural by a depth budget: JSON trees of the verdict data
model are at most 8 levels deep (verdict, judgment array, judgment,
evaluation, score array, score, leaf), so the budget of 16 used by
`canonicalVerdictJson` is never exhausted. -/
def stringifyWith (props : List String) : Nat → JVal → String
  | _, .str s => jsonQuote s
  | _, .num q => renderNum q
  | _, .bool b => if b then "true" else "false"
  | 0, .arr _ => ""
  | 0, .obj _ => ""
  | depth + 1, .arr elems =>
      "[" ++ String.intercalate ","
        (elems.map (fun x => stringifyWith props depth x)) ++ "]"
  | depth + 1, .obj fields =>
      "\x7b" ++ String.intercalate ","
        ((selectProps props fields).map
          (fun kv => jsonQuote kv.1 ++ ":" ++ stringifyWith props depth kv.2))
      ++ "\x7d"

/-! ## The verdict data model (from the zod schemas and `runCouncil`) -/

structure SpeakerScore where
  speaker : String
  argumentation : ℚ
  evidence : ℚ
  delivery : ℚ
  rebuttal : ℚ
  total : ℚ
deriving DecidableEq

structure KeyMoment where
  speaker : String
  moment : String
  impact : String
deriving DecidableEq

structure JudgeEvaluation where
  winner : String
  confidence : ℚ
  scores : List SpeakerScore
  reasoning : String
  keyMoments : List KeyMoment
deriving DecidableEq

structure IndividualJudgment where
  judge : String
  evaluation : JudgeEvaluation
deriving DecidableEq

/-- The council verdict; `voteCount` is the JavaScript object modelled
as an association list in key insertion order. -/
structure CouncilVerdict where
  finalWinner : String
  unanimity : Bool
  voteCount : List (String × Nat)
  averageScores : List SpeakerScore
  individualJudgments : List IndividualJudgment
  consensusSummary : String
deriving DecidableEq

/-- JSON form of a score object; key order is the construction order in
the source. -/
def speakerScoreToJson (s : SpeakerScore) : JVal :=
  .obj [("speaker", .str s.speaker), ("argumentation", .num s.argumentation),
    ("evidence", .num s.evidence), ("delivery", .num s.delivery),
    ("rebuttal", .num s.rebuttal), ("total", .num s.total)]

def keyMomentToJson (m : KeyMoment) : JVal :=
  .obj [("speaker", .str m.speaker), ("moment", .str m.moment),
    ("impact", .str m.impact)]

def evaluationToJson (e : JudgeEvaluation) : JVal :=
  .obj [("winner", .str e.winner), ("confidence", .num e.confidence),
    ("scores", .arr (e.scores.map speakerScoreToJson)),
    ("reasoning", .str e.reasoning),
    ("keyMoments", .arr (e.keyMoments.map keyMomentToJson))]

def judgmentToJson (j : IndividualJudgment) : JVal :=
  .obj [("judge", .str j.judge), ("evaluation", evaluationToJson j.evaluation)]

def verdictToJson (v : CouncilVerdict) : JVal :=
  .obj [("finalWinner", .str v.finalWinner),
    ("unanimity", .bool v.unanimity),
    ("voteCount", .obj (v.voteCount.map (fun kv => (kv.1, .num (kv.2 : ℚ))))),
    ("averageScores", .arr (v.averageScores.map speakerScoreToJson)),
    ("individualJudgments", .arr (v.individualJudgments.map judgmentToJson)),
    ("consensusSummary", .str v.consensusSummary)]

/-- Keys of a JSON object, in insertion order (`Object.keys`). -/
def objKeys : JVal → List String
  | .obj fields => fields.map Prod.fst
  | _ => []

/-- Code-unit lexicographic comparison, the default comparator of
`Array.prototype.sort` on strings. -/
def strLtCU : List Char → List Char → Bool
  | [], [] => false
  | [], _ :: _ => true
  | _ :: _, [] => false
  | a :: as, b :: bs =>
    if a.toNat < b.toNat then true
    else if b.toNat < a.toNat then false
    else strLtCU as bs

/-- Insertion step of the model of `Array.prototype.sort` on strings. -/
def insertStr (s : String) : List String → List String
  | [] => [s]
  | x :: xs =>
    if strLtCU x.toList s.toList then x :: insertStr s xs else s :: x :: xs

/-- `Array.prototype.sort()` on strings with the default (code-unit
lexicographic) comparator. -/
def sortStrings : List String → List String
  | [] => []
  | x :: xs => insertStr x (sortStrings xs)

/-- The canonical byte form hashed by `hashVerdict`:
`JSON.stringify(verdict, Object.keys(verdict).sort())`. -/
def canonicalVerdictJson (v : CouncilVerdict) : String :=
  stringifyWith (sortStrings (objKeys (verdictToJson v))) 16 (verdictToJson v)

/-- `hashVerdict`: keccak256 of the hex bytes of the canonical form.
The 256-bit hash (`keccak256` composed with `toHex`) is an external
primitive, taken as a function parameter. -/
def hashVerdict (keccak : String → String) (v : CouncilVerdict) : String :=
  keccak (canonicalVerdictJson v)

/-! ## Signing and verification (`signVerdict` / `verifySignedVerdict`) -/

structure SignedVerdict where
  verdict : CouncilVerdict
  hash : String
  signature : String
  signerAddress : String
  timestamp : Nat
deriving DecidableEq

/-- `signVerdict`: the wallet signing call and the clock are external,
taken as parameters (`signMsg`, `now`); `addr` is the address of the
process-held account. -/
def signVerdict (keccak signMsg : String → String) (addr : String)
    (now : Nat) (v : CouncilVerdict) : SignedVerdict :=
  let hash := hashVerdict keccak v
  { verdict := v, hash := hash, signature := signMsg hash,
    signerAddress := addr, timestamp := now }

structure VerifyResult where
  valid : Bool
  expectedSigner : String
  recoveredSigner : Option String
  hashMatch : Bool
deriving DecidableEq

/-- `String.prototype.toLowerCase()`, modelled as per-character
lowering (the strings lowered by the verifier are hex digests and hex
addresses, for which this is exact). -/
def toLowerStr (s : String) : String :=
  String.mk (s.toList.map Char.toLower)

/-- `verifySignedVerdict`.  `addr` is the process-held account address;
`verifyMsg addr hash signature` is the external `verifyMessage` call,
whose raised errors appear as `Except.error` (the source catches them
and returns a structured result).  The source returns early on a hash
mismatch; that early return is the else branch here. -/
def verifySignedVerdict (keccak : String → String) (addr : String)
    (verifyMsg : String → String → String → Except String Bool)
    (verdict : CouncilVerdict) (hash signature claimedSigner : String) :
    VerifyResult :=
  let expectedSigner := addr
  let computedHash := hashVerdict keccak verdict
  let hashMatch := toLowerStr computedHash == toLowerStr hash
  if hashMatch then
    match verifyMsg expectedSigner hash signature with
    | .ok isValid =>
      { valid := isValid && (toLowerStr claimedSigner == toLowerStr expectedSigner),
        expectedSigner := expectedSigner,
        recoveredSigner := if isValid then some expectedSigner else none,
        hashMatch := true }
    | .error _ =>
      { valid := false, expectedSigner := expectedSigner,
        recoveredSigner := none, hashMatch := true }
  else
    { valid := false, expectedSigner := expectedSigner,
      recoveredSigner := none, hashMatch := false }

/-! ## RetryExecutor (`withRetry` in utils/retry.ts)

The asynchronous operation is modelled as a function from the 1-based
attempt number to an `Except`; errors are their message strings.  The
observable side effects of a run — the sleep durations and the
`onRetry` invocations, in attempt order — are returned as a trace. -/

inductive Backoff where
  | linear
  | exponential
deriving DecidableEq

structure RetryOptions where
  maxRetries : Nat
  delayMs : Nat
  backoff : Backoff := .exponential
deriving DecidableEq

/-- The RetryError thrown after the final failed attempt. -/
structure RetryFailure where
  attempts : Nat
  lastError : String
deriving DecidableEq

structure RetryTrace (A : Type) where
  result : Except RetryFailure A
  delays : List Nat
  retryCalls : List (Nat × String)

/-- The backoff delay before the retry that follows attempt `attempt`:
`backoff === "exponential" ? delayMs * Math.pow(2, attempt - 1)
: delayMs * attempt`. -/
def retryDelay (o : RetryOptions) (attempt : Nat) : Nat :=
  match o.backoff with
  | .exponential => o.delayMs * 2 ^ (attempt - 1)
  | .linear => o.delayMs * attempt

/-- The retry loop.  The source loop runs `attempt` from 1 to
`maxRetries` and throws the RetryError when the failing attempt is the
last (`attempt === maxRetries`); that comparison appears here as
`remaining = 0`, with `remaining = maxRetries - attempt` maintained by
`withRetry`, so the recursion is structural. -/
def withRetryLoop {A : Type} (op : Nat → Except String A) (o : RetryOptions)
    (attempt : Nat) : Nat → RetryTrace A
  | 0 =>
    match op attempt with
    | .ok a => { result := .ok a, delays := [], retryCalls := [] }
    | .error e => { result := .error ⟨attempt, e⟩, delays := [], retryCalls := [] }
  | remaining + 1 =>
    match op attempt with
    | .ok a => { result := .ok a, delays := [], retryCalls := [] }
    | .error e =>
      let d := retryDelay o attempt
      let rest := withRetryLoop op o (attempt + 1) remaining
      { result := rest.result, delays := d :: rest.delays,
        retryCalls := (attempt, e) :: rest.retryCalls }

/-- `withRetry`.  When `maxRetries = 0` the loop body never runs and
the source throws the trailing RetryError carrying the placeholder
last error. -/
def withRetry {A : Type} (op : Nat → Except String A) (o : RetryOptions) :
    RetryTrace A :=
  if o.maxRetries = 0 then
    { result := .error ⟨0, "No attempts made"⟩, delays := [], retryCalls := [] }
  else withRetryLoop op o 1 (o.maxRetries - 1)

/-! ## Council aggregation (`runCouncil` in services/council.ts) -/

/-- `voteCount[w] = (voteCount[w] || 0) + 1` on an insertion-ordered
association list: a new key is appended at the end, as JavaScript
object insertion does for string keys. -/
def bumpVote (m : List (String × Nat)) (w : String) : List (String × Nat) :=
  match m with
  | [] => [(w, 1)]
  | kv :: rest =>
    if kv.1 = w then (kv.1, kv.2 + 1) :: rest else kv :: bumpVote rest w

def voteMapOf (js : List IndividualJudgment) : List (String × Nat) :=
  js.foldl (fun m j => bumpVote m j.evaluation.winner) []

/-- The per-speaker score arrays accumulated by the aggregation loop. -/
structure ScoreLists where
  argumentation : List ℚ
  evidence : List ℚ
  delivery : List ℚ
  rebuttal : List ℚ
  total : List ℚ
deriving DecidableEq

def ScoreLists.push (sl : ScoreLists) (s : SpeakerScore) : ScoreLists :=
  ⟨sl.argumentation ++ [s.argumentation], sl.evidence ++ [s.evidence],
   sl.delivery ++ [s.delivery], sl.rebuttal ++ [s.rebuttal],
   sl.total ++ [s.total]⟩

def ScoreLists.ofScore (s : SpeakerScore) : ScoreLists :=
  ⟨[s.argumentation], [s.evidence], [s.delivery], [s.rebuttal], [s.total]⟩

/-- One step of the `scoresBySpeak` accumulation: initialize the entry
with empty arrays if absent, then push each field. -/
def addScore (m : List (String × ScoreLists)) (s : SpeakerScore) :
    List (String × ScoreLists) :=
  match m with
  | [] => [(s.speaker, .ofScore s)]
  | kv :: rest =>
    if kv.1 = s.speaker then (kv.1, kv.2.push s) :: rest
    else kv :: addScore rest s

/-- The source fills `voteCount` and `scoresBySpeak` in one pass over
the judgments; the accumulators are independent, so the two maps equal
the two separate folds `voteMapOf` and `scoresBySpeakOf`. -/
def scoresBySpeakOf (js : List IndividualJudgment) :
    List (String × ScoreLists) :=
  js.foldl (fun m j => j.evaluation.scores.foldl addScore m) []

/-- `Object.entries(voteCount).reduce((a, b) => (b[1] > a[1] ? b : a))`:
the running maximum keeps the earlier entry on ties. -/
def reduceMax (e : String × Nat) (l : List (String × Nat)) : String × Nat :=
  l.foldl (fun a b => if b.2 > a.2 then b else a) e

/-- The `[0]` projection of the reduce above.  `reduce` of an empty
array throws in JavaScript; aggregation only ever runs it on a
non-empty map, so the empty case is unreachable. -/
def finalWinnerOf (m : List (String × Nat)) : String :=
  match m with
  | [] => ""
  | e :: rest => (reduceMax e rest).1

/-- `arr.length > 0 ? arr.reduce((a, b) => a + b, 0) / arr.length : 0`. -/
def avg (arr : List ℚ) : ℚ :=
  if arr.length > 0 then arr.sum / arr.length else 0

/-- `Math.round`: round half toward positive infinity. -/
def jsRound (q : ℚ) : ℤ := Rat.floor (q + 1/2)

/-- `Math.round(x * 10) / 10`. -/
def roundTo1 (q : ℚ) : ℚ := (jsRound (q * 10) : ℚ) / 10

def averageScoresOf (js : List IndividualJudgment) : List SpeakerScore :=
  (scoresBySpeakOf js).map (fun kv =>
    { speaker := kv.1,
      argumentation := roundTo1 (avg kv.2.argumentation),
      evidence := roundTo1 (avg kv.2.evidence),
      delivery := roundTo1 (avg kv.2.delivery),
      rebuttal := roundTo1 (avg kv.2.rebuttal),
      total := roundTo1 (avg kv.2.total) })

/-- The clause chosen inside the split-decision summary.  The source
condition reads `winnerArg ?? 0 > (otherArg ?? 0)`; `>` binds tighter
than `??`, so it parses as `winnerArg ?? (0 > (otherArg ?? 0))`, and
the ternary tests that value for JavaScript truthiness — a number is
truthy iff it is nonzero (`NaN` has no rational counterpart). -/
def argClause (averageScores : List SpeakerScore) (finalWinner : String) :
    String :=
  let winnerArg :=
    (averageScores.find? (fun s => s.speaker == finalWinner)).map
      SpeakerScore.argumentation
  let otherArg :=
    ((averageScores.find? (fun s => !(s.speaker == finalWinner))).map
      SpeakerScore.argumentation).getD 0
  let cond : Bool :=
    match winnerArg with
    | some a => decide (a ≠ 0)
    | none => decide ((0 : ℚ) > otherArg)
  if cond then "argumentation" else "overall performance"

def failedNoteOf (failedJudges : Nat) : String :=
  if failedJudges > 0 then
    " (" ++ toString failedJudges ++ " judge(s) failed to respond)"
  else ""

def consensusSummaryOf (unanimity : Bool) (finalWinner : String)
    (winnerVotes totalVotes : Nat) (averageScores : List SpeakerScore)
    (failedJudges : Nat) : String :=
  let failedNote := failedNoteOf failedJudges
  if unanimity then
    "The council unanimously voted for " ++ finalWinner ++
      " as the winner of this debate." ++ failedNote
  else
    "The council voted " ++ toString winnerVotes ++ "-" ++
      toString (totalVotes - winnerVotes) ++ " in favor of " ++ finalWinner ++
      ". The decision was based on superior " ++
      argClause averageScores finalWinner ++
      " across the evaluated criteria." ++ failedNote

/-- Aggregation of the successful judgments: the code in `runCouncil`
after the quorum check. -/
def aggregateVerdict (js : List IndividualJudgment) (failedJudges : Nat) :
    CouncilVerdict :=
  let voteCount := voteMapOf js
  let finalWinner := finalWinnerOf voteCount
  let unanimity := (voteCount.map Prod.snd).any (fun v => v == js.length)
  let averageScores := averageScoresOf js
  let winnerVotes := (voteCount.lookup finalWinner).getD 0
  let totalVotes := js.length
  { finalWinner := finalWinner,
    unanimity := unanimity,
    voteCount := voteCount,
    averageScores := averageScores,
    individualJudgments := js,
    consensusSummary := consensusSummaryOf unanimity finalWinner winnerVotes
      totalVotes averageScores failedJudges }

inductive CouncilFailure where
  | insufficientQuorum (succeeded : Nat) (total : Nat)
deriving DecidableEq

/-- `runCouncil` downstream of the judge calls: `results` carries one
entry per judge, `some` for a success and `none` for a judge that
failed after its retries.  The source formats the quorum failure into
the message naming how many succeeded of how many expected; the failure
is modelled structurally with those two numbers. -/
def runCouncil (results : List (Option IndividualJudgment)) :
    Except CouncilFailure CouncilVerdict :=
  let totalJudges := results.length
  let judgments := results.filterMap id
  if judgments.length < 2 then
    .error (.insufficientQuorum judgments.length totalJudges)
  else
    .ok (aggregateVerdict judgments (results.countP (fun r => r.isNone)))

/-! ## Audio chunking and parallel transcription -/

/-- The loop of `splitAudioIntoChunks`: slice `chunkSizeBytes` bytes
at a time until the buffer is exhausted.  The loop advances `offset` by
at least 1 per iteration when `chunkSizeBytes ≥ 1`, so the buffer
length bounds the iteration count; `fuel` carries that bound to make
the recursion structural.  (With a zero chunk size the source loop
would not terminate; every claim about this function assumes
`chunkSizeBytes ≥ 1`.) -/
def splitChunksLoop (chunkSizeBytes : Nat) : Nat → List Nat → List (List Nat)
  | 0, _ => []
  | fuel + 1, audioBuffer =>
    if audioBuffer = [] then []
    else
      audioBuffer.take chunkSizeBytes ::
        splitChunksLoop chunkSizeBytes fuel (audioBuffer.drop chunkSizeBytes)

/-- `splitAudioIntoChunks`. -/
def splitAudioIntoChunks (audioBuffer : List Nat) (chunkSizeBytes : Nat) :
    List (List Nat) :=
  splitChunksLoop chunkSizeBytes audioBuffer.length audioBuffer

structure TaggedText where
  text : String
  index : Nat
deriving DecidableEq

/-- One chunk call: the transcription capability `f` is the injected
external call from chunk bytes to text; the result is tagged with the
original chunk index. -/
def transcribeChunk (f : List Nat → String) (chunk : List Nat)
    (chunkIndex : Nat) : TaggedText :=
  { text := f chunk, index := chunkIndex }

/-- The tagged results produced across the batches: the chunk at
overall position `i` is tagged `i` (`batchStartIndex + batchIndex` in
the source). -/
def tagChunks (f : List Nat → String) : List (List Nat) → Nat → List TaggedText
  | [], _ => []
  | c :: cs, i => transcribeChunk f c i :: tagChunks f cs (i + 1)

/-- Insertion step of `results.sort((a, b) => a.index - b.index)`. -/
def insertByIndex (r : TaggedText) : List TaggedText → List TaggedText
  | [] => [r]
  | x :: xs => if r.index ≤ x.index then r :: x :: xs else x :: insertByIndex r xs

/-- `results.sort((a, b) => a.index - b.index)`.  All indices are
distinct, so every comparison sort returns this unique ordering
regardless of algorithm or stability. -/
def sortByIndex : List TaggedText → List TaggedText
  | [] => []
  | x :: xs => insertByIndex x (sortByIndex xs)

/-- Sorting by index and then `texts.join(" ")`, as the parallel chunk
pipelines do after all batches complete. -/
def joinedTranscript (results : List TaggedText) : String :=
  String.intercalate " " ((sortByIndex results).map TaggedText.text)

/-- The winners field of each judgment, in judgment order. -/
def winnersOf (js : List IndividualJudgment) : List String :=
  js.map (fun j => j.evaluation.winner)

/-- The keys a fold of `bumpVote` appends to an accumulated map whose
keys are `seen`: the winners not seen before, in order of first
occurrence. -/
def newKeys (seen : List String) : List String → List String
  | [] => []
  | w :: ws =>
    if w ∈ seen then newKeys seen ws else w :: newKeys (seen ++ [w]) ws

/-! ## Concrete fixtures used by witnesses and counterexamples -/

/-- A judgment by a named judge with the given winner, scores and
confidence. -/
def mkJudgment (judge w : String) (scores : List SpeakerScore) (conf : ℚ) :
    IndividualJudgment :=
  ⟨judge, ⟨w, conf, scores, "reasoning", []⟩⟩

def scoreFor (sp : String) (a : ℚ) : SpeakerScore := ⟨sp, a, 6, 6, 6, 20⟩

/-- Votes A, A, B; speaker A averages 5 on argumentation, speaker B
averages 7. -/
def jsSplitAB : List IndividualJudgment :=
  [mkJudgment "j1" "A" [scoreFor "A" 5, scoreFor "B" 7] 90,
   mkJudgment "j2" "A" [scoreFor "A" 5, scoreFor "B" 7] 80,
   mkJudgment "j3" "B" [scoreFor "A" 5, scoreFor "B" 7] 70]

/-- Three judgments scoring speaker A 8, 9 and 7 on argumentation. -/
def jsArg897 : List IndividualJudgment :=
  [mkJudgment "j1" "A" [scoreFor "A" 8] 90,
   mkJudgment "j2" "A" [scoreFor "A" 9] 80,
   mkJudgment "j3" "A" [scoreFor "A" 7] 70]

/-- A verdict whose single individual judgment has the given
confidence; two instances differ only in that nested scalar. -/
def verdictConf (c : ℚ) : CouncilVerdict :=
  ⟨"A", false, [("A", 1)], [scoreFor "A" 5],
    [mkJudgment "j1" "A" [scoreFor "A" 5] c], "s"⟩

def c9chunks : List (List Nat) := [[1], [2], [3]]

def c9transcribe : List Nat → String := fun c => toString (c.headD 0)

/-- An operation that fails twice and then succeeds with 42. -/
def c5op : Nat → Except String Nat :=
  fun i => if i ≤ 2 then .error "boom" else .ok 42

def c5err : Nat → String := fun _ => "boom"

/-- An operation that always fails. -/
def c5failOp : Nat → Except String Nat := fun _ => .error "boom"

/-- Judge outcomes with one success out of five judges. -/
def c3oneOfFive : List (Option IndividualJudgment) :=
  [some (mkJudgment "j1" "A" [scoreFor "A" 5] 90), none, none, none, none]

/-! ## Lemmas: audio chunking -/

theorem splitChunksLoop_nil (n fuel : Nat) : splitChunksLoop n fuel [] = [] := by
  cases fuel <;> simp [splitChunksLoop]

theorem splitChunksLoop_ne_nil (n fuel : Nat) (buf : List Nat)
    (hbuf : buf ≠ []) (hfuel : 1 ≤ fuel) : splitChunksLoop n fuel buf ≠ [] := by
  cases fuel with
  | zero => omega
  | succ f => simp [splitChunksLoop, hbuf]

theorem splitChunksLoop_spec (n : Nat) (hn : 1 ≤ n) :
    ∀ (fuel : Nat) (buf : List Nat), buf.length ≤ fuel →
      (splitChunksLoop n fuel buf).flatten = buf ∧
      (∀ c ∈ (splitChunksLoop n fuel buf).dropLast, c.length = n) ∧
      (∀ c, (splitChunksLoop n fuel buf).getLast? = some c →
        1 ≤ c.length ∧ c.length ≤ n) := by
  intro fuel
  induction fuel with
  | zero =>
    intro buf hb
    have hb0 : buf = [] := List.length_eq_zero.mp (Nat.le_zero.mp hb)
    subst hb0
    simp [splitChunksLoop]
  | succ fuel ih =>
    intro buf hb
    by_cases hbuf : buf = []
    · subst hbuf
      simp [splitChunksLoop]
    · have hlen : 0 < buf.length := List.length_pos.mpr hbuf
      have hdrop : (buf.drop n).length ≤ fuel := by
        simp only [List.length_drop]
        omega
      obtain ⟨ihj, ihd, ihl⟩ := ih (buf.drop n) hdrop
      rw [splitChunksLoop, if_neg hbuf]
      refine ⟨?_, ?_, ?_⟩
      · rw [List.flatten_cons, ihj, List.take_append_drop]
      · cases hsp : splitChunksLoop n fuel (buf.drop n) with
        | nil => simp
        | cons y ys =>
          have hdne : buf.drop n ≠ [] := by
            intro h0
            rw [h0, splitChunksLoop_nil] at hsp
            exact List.noConfusion hsp
          have hlen2 : n < buf.length := by
            by_contra hnot
            push_neg at hnot
            exact hdne (List.drop_eq_nil_iff.mpr hnot)
          intro c hc
          rw [hsp] at ihd
          rw [List.dropLast_cons₂] at hc
          rcases List.mem_cons.mp hc with hc | hc
          · subst hc
            simp only [List.length_take]
            omega
          · exact ihd c hc
      · cases hsp : splitChunksLoop n fuel (buf.drop n) with
        | nil =>
          intro c hc
          have hdnil : buf.drop n = [] := by
            cases fuel with
            | zero => exact List.length_eq_zero.mp (Nat.le_zero.mp hdrop)
            | succ f =>
              by_contra h0
              exact splitChunksLoop_ne_nil n (f + 1) _ h0 (Nat.succ_pos f) hsp
          have hle : buf.length ≤ n := List.drop_eq_nil_iff.mp hdnil
          simp only [List.getLast?_singleton, Option.some.injEq] at hc
          subst hc
          simp only [List.length_take]
          omega
        | cons y ys =>
          intro c hc
          rw [hsp] at ihl
          rw [List.getLast?_cons_cons] at hc
          exact ihl c hc

/-- C10: for every byte buffer and every chunk size of at least one
byte, `splitAudioIntoChunks` returns chunks whose in-order
concatenation is the original buffer, every chunk but possibly the
last has exactly `chunkSizeBytes` bytes, the last chunk has between 1
and `chunkSizeBytes` bytes, and an empty buffer yields no chunks.
(The function is total by construction, so it terminates on every
input.) -/
theorem c10_splitAudioIntoChunks (buf : List Nat) (n : Nat) (hn : 1 ≤ n) :
    (splitAudioIntoChunks buf n).flatten = buf ∧
    (∀ c ∈ (splitAudioIntoChunks buf n).dropLast, c.length = n) ∧
    (∀ c, (splitAudioIntoChunks buf n).getLast? = some c →
      1 ≤ c.length ∧ c.length ≤ n) ∧
    splitAudioIntoChunks [] n = [] := by
  obtain ⟨h1, h2, h3⟩ := splitChunksLoop_spec n hn buf.length buf le_rfl
  exact ⟨h1, h2, h3, rfl⟩

/-! ## Lemmas: order restoration by original chunk index -/

theorem insertByIndex_perm (r : TaggedText) (l : List TaggedText) :
    (insertByIndex r l).Perm (r :: l) := by
  induction l with
  | nil => exact List.Perm.refl _
  | cons x xs ih =>
    rw [insertByIndex]
    split
    · exact List.Perm.refl _
    · exact (List.Perm.cons x ih).trans (List.Perm.swap r x xs)

theorem sortByIndex_perm (l : List TaggedText) : (sortByIndex l).Perm l := by
  induction l with
  | nil => exact List.Perm.refl _
  | cons x xs ih =>
    exact (insertByIndex_perm x (sortByIndex xs)).trans (List.Perm.cons x ih)

theorem insertByIndex_pairwise (r : TaggedText) (l : List TaggedText)
    (h : l.Pairwise (fun a b => a.index ≤ b.index)) :
    (insertByIndex r l).Pairwise (fun a b => a.index ≤ b.index) := by
  induction l with
  | nil => exact List.pairwise_singleton _ r
  | cons x xs ih =>
    rw [insertByIndex]
    rcases List.pairwise_cons.mp h with ⟨hx, hxs⟩
    split
    · rename_i hr
      exact List.pairwise_cons.mpr ⟨fun b hb => by
        rcases List.mem_cons.mp hb with hb | hb
        · exact hb ▸ hr
        · exact le_trans hr (hx b hb), h⟩
    · rename_i hr
      push_neg at hr
      refine List.pairwise_cons.mpr ⟨fun b hb => ?_, ih hxs⟩
      have hb2 : b ∈ r :: xs := (insertByIndex_perm r xs).mem_iff.mp hb
      rcases List.mem_cons.mp hb2 with hb2 | hb2
      · exact hb2 ▸ le_of_lt hr
      · exact hx b hb2

theorem sortByIndex_pairwise (l : List TaggedText) :
    (sortByIndex l).Pairwise (fun a b => a.index ≤ b.index) := by
  induction l with
  | nil => exact List.Pairwise.nil
  | cons x xs ih => exact insertByIndex_pairwise x (sortByIndex xs) ih

/-- Two lists that are permutations of one another, both sorted by
index, with all indices distinct, coincide. -/
theorem sorted_nodup_index_perm_eq :
    ∀ (l1 l2 : List TaggedText), l1.Perm l2 →
      l1.Pairwise (fun a b => a.index ≤ b.index) →
      l2.Pairwise (fun a b => a.index ≤ b.index) →
      (l1.map TaggedText.index).Nodup → l1 = l2 := by
  intro l1
  induction l1 with
  | nil =>
    intro l2 hp _ _ _
    exact hp.nil_eq
  | cons x t ih =>
    intro l2 hp hs1 hs2 hnd
    cases l2 with
    | nil => exact absurd hp.eq_nil (List.cons_ne_nil x t)
    | cons y t2 =>
      have hxy : x = y := by
        by_contra hne
        have hxmem : x ∈ y :: t2 := hp.mem_iff.mp (List.mem_cons_self x t)
        have hymem : y ∈ x :: t := hp.mem_iff.mpr (List.mem_cons_self y t2)
        have hx2 : x ∈ t2 := by
          rcases List.mem_cons.mp hxmem with h | h
          · exact absurd h hne
          · exact h
        have hy2 : y ∈ t := by
          rcases List.mem_cons.mp hymem with h | h
          · exact absurd h.symm hne
          · exact h
        have h1 : x.index ≤ y.index := List.rel_of_pairwise_cons hs1 hy2
        have h2 : y.index ≤ x.index := List.rel_of_pairwise_cons hs2 hx2
        have heq : y.index = x.index := le_antisymm h2 h1
        have hmem : x.index ∈ t.map TaggedText.index :=
          List.mem_map.mpr ⟨y, hy2, heq⟩
        rw [List.map_cons] at hnd
        exact (List.nodup_cons.mp hnd).1 hmem
      subst hxy
      have hpt : t.Perm t2 := hp.cons_inv
      rw [List.map_cons] at hnd
      exact congrArg (x :: ·)
        (ih t2 hpt (List.pairwise_cons.mp hs1).2 (List.pairwise_cons.mp hs2).2
          (List.nodup_cons.mp hnd).2)

theorem tagChunks_map_index (f : List Nat → String) :
    ∀ (cs : List (List Nat)) (i : Nat),
      (tagChunks f cs i).map TaggedText.index = List.range' i cs.length := by
  intro cs
  induction cs with
  | nil => intro i; rfl
  | cons c cs ih =>
    intro i
    simp only [tagChunks, transcribeChunk, List.map_cons, List.length_cons,
      List.range'_succ, ih]

theorem sortByIndex_eq_of_perm (l1 l2 : List TaggedText) (hp : l1.Perm l2)
    (hnd : (l2.map TaggedText.index).Nodup) : sortByIndex l1 = sortByIndex l2 := by
  have hperm : (sortByIndex l1).Perm (sortByIndex l2) :=
    (sortByIndex_perm l1).trans (hp.trans (sortByIndex_perm l2).symm)
  have hnd1 : ((sortByIndex l1).map TaggedText.index).Nodup := by
    have := ((sortByIndex_perm l1).trans hp).map TaggedText.index
    exact this.nodup_iff.mpr hnd
  exact sorted_nodup_index_perm_eq _ _ hperm (sortByIndex_pairwise l1)
    (sortByIndex_pairwise l2) hnd1

/-! ## Lemmas: bounded retry -/

theorem withRetryLoop_ok {A : Type} (op : Nat → Except String A)
    (o : RetryOptions) (e : Nat → String) (v : A) :
    ∀ (m r a : Nat), m ≤ r →
      (∀ i, a ≤ i → i < a + m → op i = .error (e i)) →
      op (a + m) = .ok v →
      withRetryLoop op o a r =
        ⟨.ok v, (List.range' a m).map (retryDelay o),
          (List.range' a m).map (fun i => (i, e i))⟩ := by
  intro m
  induction m with
  | zero =>
    intro r a _ _ hsucc
    rw [Nat.add_zero] at hsucc
    cases r <;> simp [withRetryLoop, hsucc]
  | succ m ih =>
    intro r a hmr hfail hsucc
    have hfa : op a = .error (e a) := hfail a le_rfl (by omega)
    cases r with
    | zero => omega
    | succ r =>
      simp only [withRetryLoop, hfa]
      rw [ih r (a + 1) (by omega) (fun i h1 h2 => hfail i (by omega) (by omega))
        (by rw [show a + 1 + m = a + (m + 1) by omega]; exact hsucc)]
      simp [List.range'_succ]

theorem withRetryLoop_exhaust {A : Type} (op : Nat → Except String A)
    (o : RetryOptions) (e : Nat → String) :
    ∀ (r a : Nat),
      (∀ i, a ≤ i → i ≤ a + r → op i = .error (e i)) →
      withRetryLoop op o a r =
        ⟨.error ⟨a + r, e (a + r)⟩, (List.range' a r).map (retryDelay o),
          (List.range' a r).map (fun i => (i, e i))⟩ := by
  intro r
  induction r with
  | zero =>
    intro a hfail
    have hfa := hfail a le_rfl (by omega)
    simp [withRetryLoop, hfa]
  | succ r ih =>
    intro a hfail
    have hfa : op a = .error (e a) := hfail a le_rfl (by omega)
    simp only [withRetryLoop, hfa]
    rw [ih (a + 1) (fun i h1 h2 => hfail i (by omega) (by omega))]
    have harith : a + 1 + r = a + (r + 1) := by omega
    rw [harith]
    simp [List.range'_succ]

/-- C5 (amended): on a failed attempt with attempt < maxRetries,
`withRetry` waits `delayMs * 2 ^ (attempt - 1)` under exponential
backoff and `delayMs * attempt` under linear backoff (not the constant
`delayMs` the claim states for the linear case), invokes
`onRetry(attempt, error)`, and retries; an operation that fails
`k < maxRetries` times then succeeds yields the success value after
exactly `k` retries; after `maxRetries` failed attempts the result is
the RetryError carrying the attempt count `maxRetries` and the last
underlying error. -/
theorem c5_withRetry {A : Type} (op : Nat → Except String A)
    (o : RetryOptions) (e : Nat → String) (k : Nat) (v : A)
    (hk : k < o.maxRetries)
    (hfail : ∀ i, 1 ≤ i → i ≤ k → op i = .error (e i))
    (hsucc : op (k + 1) = .ok v) :
    ((withRetry op o).result = .ok v ∧
      (withRetry op o).retryCalls = (List.range' 1 k).map (fun i => (i, e i)) ∧
      (withRetry op o).delays = (List.range' 1 k).map (retryDelay o) ∧
      (o.backoff = .exponential → ∀ i, retryDelay o i = o.delayMs * 2 ^ (i - 1)) ∧
      (o.backoff = .linear → ∀ i, retryDelay o i = o.delayMs * i)) ∧
    (∀ (op2 : Nat → Except String A) (e2 : Nat → String),
      (∀ i, 1 ≤ i → i ≤ o.maxRetries → op2 i = .error (e2 i)) →
      (withRetry op2 o).result = .error ⟨o.maxRetries, e2 o.maxRetries⟩ ∧
      (withRetry op2 o).retryCalls =
        (List.range' 1 (o.maxRetries - 1)).map (fun i => (i, e2 i))) := by
  have hmr : o.maxRetries ≠ 0 := by omega
  constructor
  · have hloop := withRetryLoop_ok op o e v k (o.maxRetries - 1) 1 (by omega)
      (fun i h1 h2 => hfail i h1 (by omega))
      (by rw [show 1 + k = k + 1 by omega]; exact hsucc)
    unfold withRetry
    rw [if_neg hmr, hloop]
    refine ⟨rfl, rfl, rfl, ?_, ?_⟩
    · intro hb i
      unfold retryDelay
      rw [hb]
    · intro hb i
      unfold retryDelay
      rw [hb]
  · intro op2 e2 hfail2
    have hloop := withRetryLoop_exhaust op2 o e2 (o.maxRetries - 1) 1
      (fun i h1 h2 => hfail2 i h1 (by omega))
    unfold withRetry
    rw [if_neg hmr, hloop]
    rw [show 1 + (o.maxRetries - 1) = o.maxRetries by omega]
    exact ⟨rfl, rfl⟩

/-- Witness for C5: the operation failing twice then succeeding, with
5 allowed attempts, returns 42 after 2 retries with exponential delays
100 and 200. -/
theorem c5_withRetry_witness :
    (withRetry c5op ⟨5, 100, .exponential⟩).result = .ok 42 ∧
    (withRetry c5op ⟨5, 100, .exponential⟩).delays = [100, 200] := by
  have h := c5_withRetry c5op ⟨5, 100, .exponential⟩ c5err 2 42 (by decide)
    (by intro i h1 h2; interval_cases i <;> rfl) (by rfl)
  refine ⟨h.1.1, ?_⟩
  rw [h.1.2.2.1]
  decide

/-- Counterexample to C5 as stated: the claim says linear backoff
waits `baseDelay` before every retry; with maxRetries 3 and delayMs
100 the code waits 100 and then 200, not 100 and 100. -/
theorem c5_counterexample :
    (withRetry c5failOp ⟨3, 100, .linear⟩).delays = [100, 200] ∧
    (withRetry c5failOp ⟨3, 100, .linear⟩).delays ≠ [100, 100] := by
  exact ⟨by decide, by decide⟩

/-- C3: with fewer than 2 successful judgments, `runCouncil` fails
with the insufficient-quorum failure naming how many judges succeeded
out of how many were expected; with 2 or more successes it returns a
verdict over exactly the successful judgments — the failed judges are
absorbed, not escalated. -/
theorem c3_quorum (results : List (Option IndividualJudgment)) :
    ((results.filterMap id).length < 2 →
      runCouncil results =
        .error (.insufficientQuorum (results.filterMap id).length
          results.length)) ∧
    (2 ≤ (results.filterMap id).length →
      ∃ v, runCouncil results = .ok v ∧
        v.individualJudgments = results.filterMap id) := by
  constructor
  · intro h
    unfold runCouncil
    rw [if_pos h]
  · intro h
    unfold runCouncil
    rw [if_neg (by omega)]
    exact ⟨_, rfl, rfl⟩

/-- Witness for C3: one success out of five raises the quorum failure
naming 1 of 5; three successes produce a verdict. -/
theorem c3_quorum_witness :
    ((c3oneOfFive.filterMap id).length < 2 ∧
      runCouncil c3oneOfFive = .error (.insufficientQuorum 1 5)) ∧
    (2 ≤ ((jsSplitAB.map some).filterMap id).length ∧
      ∃ v, runCouncil (jsSplitAB.map some) = .ok v ∧
        v.individualJudgments = (jsSplitAB.map some).filterMap id) := by
  refine ⟨⟨by decide, ?_⟩, by decide, (c3_quorum (jsSplitAB.map some)).2 (by decide)⟩
  exact (c3_quorum c3oneOfFive).1 (by decide)

/-! ## Lemmas: vote tallying -/

theorem bumpVote_sum (m : List (String × Nat)) (w : String) :
    ((bumpVote m w).map Prod.snd).sum = (m.map Prod.snd).sum + 1 := by
  induction m with
  | nil => simp [bumpVote]
  | cons kv rest ih =>
    rw [bumpVote]
    split
    · simp only [List.map_cons, List.sum_cons]
      omega
    · simp only [List.map_cons, List.sum_cons, ih]
      omega

theorem voteMap_sum_aux (ws : List String) :
    ∀ m, ((ws.foldl bumpVote m).map Prod.snd).sum =
      (m.map Prod.snd).sum + ws.length := by
  induction ws with
  | nil => intro m; simp
  | cons w ws ih =>
    intro m
    rw [List.foldl_cons, ih, bumpVote_sum, List.length_cons]
    omega

theorem voteMapOf_eq_foldl (js : List IndividualJudgment) :
    voteMapOf js = (winnersOf js).foldl bumpVote [] := by
  unfold voteMapOf winnersOf
  rw [List.foldl_map]

theorem voteMapOf_sum (js : List IndividualJudgment) :
    ((voteMapOf js).map Prod.snd).sum = js.length := by
  rw [voteMapOf_eq_foldl, voteMap_sum_aux]
  simp [winnersOf]

theorem bumpVote_pos (m : List (String × Nat)) (w : String)
    (h : ∀ p ∈ m, 1 ≤ p.2) : ∀ p ∈ bumpVote m w, 1 ≤ p.2 := by
  induction m with
  | nil =>
    intro p hp
    rw [bumpVote] at hp
    rcases List.mem_singleton.mp hp with rfl
    exact le_refl 1
  | cons kv rest ih =>
    intro p hp
    rw [bumpVote] at hp
    split at hp
    · rcases List.mem_cons.mp hp with hp | hp
      · subst hp
        have := h kv (List.mem_cons_self kv rest)
        omega
      · exact h p (List.mem_cons_of_mem kv hp)
    · rcases List.mem_cons.mp hp with hp | hp
      · rw [hp]
        exact h kv (List.mem_cons_self kv rest)
      · exact ih (fun q hq => h q (List.mem_cons_of_mem kv hq)) p hp

theorem voteMap_pos_aux (ws : List String) :
    ∀ m, (∀ p ∈ m, 1 ≤ p.2) → ∀ p ∈ ws.foldl bumpVote m, 1 ≤ p.2 := by
  induction ws with
  | nil =>
    intro m hm
    simpa using hm
  | cons w ws ih =>
    intro m hm
    rw [List.foldl_cons]
    exact ih _ (bumpVote_pos m w hm)

theorem voteMapOf_pos (js : List IndividualJudgment) :
    ∀ p ∈ voteMapOf js, 1 ≤ p.2 := by
  rw [voteMapOf_eq_foldl]
  exact voteMap_pos_aux _ [] (by simp)

theorem bumpVote_keys (m : List (String × Nat)) (w : String) :
    (bumpVote m w).map Prod.fst =
      if w ∈ m.map Prod.fst then m.map Prod.fst
      else m.map Prod.fst ++ [w] := by
  induction m with
  | nil => simp [bumpVote]
  | cons kv rest ih =>
    rw [bumpVote]
    split
    · rename_i heq
      simp [heq]
    · rename_i hne
      simp only [List.map_cons, ih]
      by_cases hw : w ∈ rest.map Prod.fst
      · rw [if_pos hw, if_pos (List.mem_cons_of_mem kv.1 hw)]
      · rw [if_neg hw, if_neg ?_, List.cons_append]
        intro hmem
        rcases List.mem_cons.mp hmem with h0 | h0
        · exact hne h0.symm
        · exact hw h0

theorem voteMap_keys_aux (ws : List String) :
    ∀ m : List (String × Nat),
      (ws.foldl bumpVote m).map Prod.fst =
        m.map Prod.fst ++ newKeys (m.map Prod.fst) ws := by
  induction ws with
  | nil =>
    intro m
    simp [newKeys]
  | cons w ws ih =>
    intro m
    rw [List.foldl_cons, ih, bumpVote_keys, newKeys]
    by_cases hw : w ∈ m.map Prod.fst
    · rw [if_pos hw, if_pos hw]
    · rw [if_neg hw, if_neg hw, List.append_assoc, List.singleton_append]

theorem voteMapOf_keys (js : List IndividualJudgment) :
    (voteMapOf js).map Prod.fst = newKeys [] (winnersOf js) := by
  rw [voteMapOf_eq_foldl, voteMap_keys_aux]
  simp

/-- The source `reduce` keeps the earlier entry on equal counts, so it
returns the first entry with the maximum count: the map splits into a
prefix of strictly smaller counts, the returned entry, and a suffix of
counts at most the maximum. -/
theorem reduceMax_firstMax (l : List (String × Nat)) :
    ∀ e : String × Nat, ∃ pre suf, e :: l = pre ++ reduceMax e l :: suf ∧
      (∀ p ∈ pre, p.2 < (reduceMax e l).2) ∧
      (∀ p ∈ e :: l, p.2 ≤ (reduceMax e l).2) := by
  induction l with
  | nil =>
    intro e
    exact ⟨[], [], rfl, by simp, by simp [reduceMax]⟩
  | cons b t ih =>
    intro e
    have hstep : reduceMax e (b :: t) = reduceMax (if b.2 > e.2 then b else e) t := rfl
    by_cases hb : b.2 > e.2
    · rw [hstep, if_pos hb]
      obtain ⟨pre, suf, hd, hpre, hmax⟩ := ih b
      refine ⟨e :: pre, suf, ?_, ?_, ?_⟩
      · rw [List.cons_append, ← hd]
      · intro p hp
        rcases List.mem_cons.mp hp with hp | hp
        · subst hp
          exact lt_of_lt_of_le hb (hmax b (List.mem_cons_self b t))
        · exact hpre p hp
      · intro p hp
        rcases List.mem_cons.mp hp with hp | hp
        · subst hp
          exact le_of_lt (lt_of_lt_of_le hb (hmax b (List.mem_cons_self b t)))
        · exact hmax p hp
    · rw [hstep, if_neg hb]
      push_neg at hb
      obtain ⟨pre, suf, hd, hpre, hmax⟩ := ih e
      cases pre with
      | nil =>
        rw [List.nil_append] at hd
        have he : e = reduceMax e t := (List.cons_eq_cons.mp hd).1
        have ht : t = suf := (List.cons_eq_cons.mp hd).2
        refine ⟨[], b :: t, ?_, by simp, ?_⟩
        · rw [List.nil_append, ← he, ht]
        · intro p hp
          rcases List.mem_cons.mp hp with hp | hp
          · rw [hp]
            exact hmax e (List.mem_cons_self e t)
          · rcases List.mem_cons.mp hp with hp | hp
            · rw [hp]
              exact le_trans hb (hmax e (List.mem_cons_self e t))
            · exact hmax p (List.mem_cons_of_mem e hp)
      | cons p0 pre =>
        rw [List.cons_append] at hd
        have he : e = p0 := (List.cons_eq_cons.mp hd).1
        have ht : t = pre ++ reduceMax e t :: suf := (List.cons_eq_cons.mp hd).2
        have hlt : e.2 < (reduceMax e t).2 := by
          have hp0 := hpre p0 (List.mem_cons_self p0 pre)
          rw [← he] at hp0
          exact hp0
        refine ⟨e :: b :: pre, suf, ?_, ?_, ?_⟩
        · rw [List.cons_append, List.cons_append, ← ht]
        · intro p hp
          rcases List.mem_cons.mp hp with hp | hp
          · rw [hp]
            exact hlt
          · rcases List.mem_cons.mp hp with hp | hp
            · rw [hp]
              exact lt_of_le_of_lt hb hlt
            · exact hpre p (List.mem_cons_of_mem p0 hp)
        · intro p hp
          rcases List.mem_cons.mp hp with hp | hp
          · rw [hp]
            exact hmax e (List.mem_cons_self e t)
          · rcases List.mem_cons.mp hp with hp | hp
            · rw [hp]
              exact le_trans hb (hmax e (List.mem_cons_self e t))
            · exact hmax p (List.mem_cons_of_mem e hp)

theorem finalWinnerOf_spec (m : List (String × Nat)) (hm : m ≠ []) :
    ∃ c pre suf, m = pre ++ (finalWinnerOf m, c) :: suf ∧
      (∀ p ∈ pre, p.2 < c) ∧ (∀ p ∈ m, p.2 ≤ c) := by
  cases m with
  | nil => exact absurd rfl hm
  | cons e rest =>
    obtain ⟨pre, suf, hd, hpre, hmax⟩ := reduceMax_firstMax rest e
    refine ⟨(reduceMax e rest).2, pre, suf, ?_, hpre, hmax⟩
    rw [finalWinnerOf]
    rw [Prod.mk.eta]
    exact hd

/-- C6: the final winner has a vote count at least every other count;
the vote map splits as a prefix of strictly smaller counts followed by
the winner entry, so on ties the winner is the first entry of the
accumulated map with the maximum count; the key order of that map is
the order in which winners first received a vote while folding over
the judgments; and a speaker with a strictly highest count is the
final winner. -/
theorem c6_finalWinner (js : List IndividualJudgment) (fj : Nat)
    (hne : js ≠ []) :
    ∃ c pre suf,
      voteMapOf js = pre ++ ((aggregateVerdict js fj).finalWinner, c) :: suf ∧
      (∀ p ∈ voteMapOf js, p.2 ≤ c) ∧
      (∀ p ∈ pre, p.2 < c) ∧
      (voteMapOf js).map Prod.fst = newKeys [] (winnersOf js) ∧
      (∀ q ∈ voteMapOf js, (∀ p ∈ voteMapOf js, p ≠ q → p.2 < q.2) →
        (aggregateVerdict js fj).finalWinner = q.1) := by
  have hm : voteMapOf js ≠ [] := by
    intro h0
    have hsum := voteMapOf_sum js
    rw [h0] at hsum
    simp only [List.map_nil, List.sum_nil] at hsum
    exact hne (List.length_eq_zero.mp hsum.symm)
  have hwin : (aggregateVerdict js fj).finalWinner =
      finalWinnerOf (voteMapOf js) := rfl
  obtain ⟨c, pre, suf, hd, hpre, hmax⟩ := finalWinnerOf_spec (voteMapOf js) hm
  refine ⟨c, pre, suf, by rw [hwin]; exact hd, hmax, hpre, voteMapOf_keys js, ?_⟩
  intro q hq hstrict
  have hwmem : (finalWinnerOf (voteMapOf js), c) ∈ voteMapOf js := by
    have hx : (finalWinnerOf (voteMapOf js), c) ∈
        pre ++ (finalWinnerOf (voteMapOf js), c) :: suf :=
      List.mem_append_right pre (List.mem_cons_self _ suf)
    rw [← hd] at hx
    exact hx
  by_cases heq : (finalWinnerOf (voteMapOf js), c) = q
  · rw [hwin, ← heq]
  · have h1 : c < q.2 := hstrict _ hwmem heq
    have h2 : q.2 ≤ c := hmax q hq
    omega

/-- Witness for C6 at the 2-1 vote split A, A, B. -/
theorem c6_finalWinner_witness :
    jsSplitAB ≠ [] ∧
    ∃ c pre suf,
      voteMapOf jsSplitAB =
        pre ++ ((aggregateVerdict jsSplitAB 0).finalWinner, c) :: suf ∧
      (∀ p ∈ voteMapOf jsSplitAB, p.2 ≤ c) ∧
      (∀ p ∈ pre, p.2 < c) ∧
      (voteMapOf jsSplitAB).map Prod.fst = newKeys [] (winnersOf jsSplitAB) ∧
      (∀ q ∈ voteMapOf jsSplitAB,
        (∀ p ∈ voteMapOf jsSplitAB, p ≠ q → p.2 < q.2) →
        (aggregateVerdict jsSplitAB 0).finalWinner = q.1) :=
  ⟨by decide, c6_finalWinner jsSplitAB 0 (by decide)⟩

/-- C7: every verdict returned by `runCouncil` satisfies: the vote
counts sum to the number of individual judgments, the final winner is
a key of the vote map, every key received at least one vote, and
unanimity holds exactly when some speaker received as many votes as
there are judgments. -/
theorem c7_verdict_invariants (results : List (Option IndividualJudgment))
    (v : CouncilVerdict) (h : runCouncil results = .ok v) :
    ((v.voteCount.map Prod.snd).sum = v.individualJudgments.length) ∧
    v.finalWinner ∈ v.voteCount.map Prod.fst ∧
    (∀ p ∈ v.voteCount, 1 ≤ p.2) ∧
    (v.unanimity = true ↔
      ∃ p ∈ v.voteCount, p.2 = v.individualJudgments.length) := by
  simp only [runCouncil] at h
  split at h
  · exact absurd h (by simp)
  · rename_i hq
    have hv : aggregateVerdict (results.filterMap id)
        (results.countP fun r => r.isNone) = v := by
      injection h
    subst hv
    push_neg at hq
    have hne : results.filterMap id ≠ [] := by
      intro h0
      rw [h0] at hq
      simp at hq
    have hm : voteMapOf (results.filterMap id) ≠ [] := by
      intro h0
      have hsum := voteMapOf_sum (results.filterMap id)
      rw [h0] at hsum
      simp only [List.map_nil, List.sum_nil] at hsum
      exact hne (List.length_eq_zero.mp hsum.symm)
    refine ⟨voteMapOf_sum _, ?_, voteMapOf_pos _, ?_⟩
    · obtain ⟨c, pre, suf, hd, _, _⟩ := finalWinnerOf_spec _ hm
      show finalWinnerOf (voteMapOf (results.filterMap id)) ∈
        (voteMapOf (results.filterMap id)).map Prod.fst
      have hx : (finalWinnerOf (voteMapOf (results.filterMap id)), c) ∈
          pre ++ (finalWinnerOf (voteMapOf (results.filterMap id)), c) :: suf :=
        List.mem_append_right pre (List.mem_cons_self _ suf)
      rw [← hd] at hx
      exact List.mem_map.mpr ⟨_, hx, rfl⟩
    · show ((voteMapOf (results.filterMap id)).map Prod.snd).any
          (fun x => x == (results.filterMap id).length) = true ↔ _
      simp only [List.any_eq_true, beq_iff_eq, List.mem_map]
      constructor
      · rintro ⟨x, ⟨p, hp, rfl⟩, hx⟩
        exact ⟨p, hp, hx⟩
      · rintro ⟨p, hp, hpx⟩
        exact ⟨p.2, ⟨p, hp, rfl⟩, hpx⟩

/-- Witness for C7 at the 2-1 vote split A, A, B run through
`runCouncil`. -/
theorem c7_verdict_invariants_witness :
    runCouncil (jsSplitAB.map some) = .ok (aggregateVerdict jsSplitAB 0) ∧
    (((aggregateVerdict jsSplitAB 0).voteCount.map Prod.snd).sum =
        (aggregateVerdict jsSplitAB 0).individualJudgments.length ∧
      (aggregateVerdict jsSplitAB 0).finalWinner ∈
        (aggregateVerdict jsSplitAB 0).voteCount.map Prod.fst ∧
      (∀ p ∈ (aggregateVerdict jsSplitAB 0).voteCount, 1 ≤ p.2) ∧
      ((aggregateVerdict jsSplitAB 0).unanimity = true ↔
        ∃ p ∈ (aggregateVerdict jsSplitAB 0).voteCount,
          p.2 = (aggregateVerdict jsSplitAB 0).individualJudgments.length)) := by
  have hrun : runCouncil (jsSplitAB.map some) =
      .ok (aggregateVerdict jsSplitAB 0) := by rfl
  exact ⟨hrun, c7_verdict_invariants (jsSplitAB.map some) _ hrun⟩

/-! ## Lemmas: score averaging -/

theorem scoresBySpeak_flat_aux (js : List IndividualJudgment) :
    ∀ m, js.foldl (fun m j => j.evaluation.scores.foldl addScore m) m =
      (js.flatMap (fun j => j.evaluation.scores)).foldl addScore m := by
  induction js with
  | nil => intro m; rfl
  | cons j js ih =>
    intro m
    rw [List.foldl_cons, ih, List.flatMap_cons, List.foldl_append]

theorem scoresBySpeakOf_flat (js : List IndividualJudgment) :
    scoresBySpeakOf js =
      (js.flatMap (fun j => j.evaluation.scores)).foldl addScore [] :=
  scoresBySpeak_flat_aux js []

theorem lookup_addScore (m : List (String × ScoreLists)) (s : SpeakerScore)
    (sp : String) :
    List.lookup sp (addScore m s) =
      if sp = s.speaker then
        match List.lookup sp m with
        | none => some (.ofScore s)
        | some sl => some (sl.push s)
      else List.lookup sp m := by
  induction m with
  | nil =>
    by_cases h : sp = s.speaker
    · subst h
      simp [addScore, List.lookup_cons]
    · simp [addScore, List.lookup_cons, h, beq_eq_false_iff_ne.mpr h]
  | cons kv rest ih =>
    obtain ⟨k, sl0⟩ := kv
    by_cases hk : k = s.speaker
    · subst hk
      by_cases h : sp = s.speaker
      · subst h
        simp [addScore, List.lookup_cons]
      · simp [addScore, List.lookup_cons, h, beq_eq_false_iff_ne.mpr h]
    · by_cases h : sp = k
      · subst h
        simp [addScore, List.lookup_cons, hk, beq_eq_false_iff_ne.mpr hk]
      · simp [addScore, List.lookup_cons, hk, h, beq_eq_false_iff_ne.mpr h, ih]

theorem lookup_foldl_addScore (sp : String) :
    ∀ l : List SpeakerScore,
      List.lookup sp (l.foldl addScore []) =
        if (l.filter (fun t => t.speaker == sp)) = [] then none
        else some
          ⟨(l.filter (fun t => t.speaker == sp)).map SpeakerScore.argumentation,
           (l.filter (fun t => t.speaker == sp)).map SpeakerScore.evidence,
           (l.filter (fun t => t.speaker == sp)).map SpeakerScore.delivery,
           (l.filter (fun t => t.speaker == sp)).map SpeakerScore.rebuttal,
           (l.filter (fun t => t.speaker == sp)).map SpeakerScore.total⟩ := by
  intro l
  induction l using List.reverseRecOn with
  | nil => simp
  | append_singleton l s ih =>
    rw [List.foldl_append, List.foldl_cons, List.foldl_nil, lookup_addScore,
      List.filter_append]
    by_cases h : sp = s.speaker
    · have hs : List.filter (fun t => t.speaker == sp) [s] = [s] := by
        simp [List.filter_cons, beq_iff_eq.mpr h.symm]
      rw [if_pos h, ih, hs]
      by_cases hl : List.filter (fun t => t.speaker == sp) l = []
      · rw [if_pos hl, hl]
        simp [ScoreLists.ofScore]
      · rw [if_neg hl, if_neg (by simp)]
        simp [ScoreLists.push]
    · have hs : List.filter (fun t => t.speaker == sp) [s] = [] := by
        have hbeq : (s.speaker == sp) = false :=
          beq_eq_false_iff_ne.mpr (fun h0 => h h0.symm)
        simp [List.filter_cons, hbeq]
      rw [if_neg h, ih, hs, List.append_nil]

theorem addScore_keys (m : List (String × ScoreLists)) (s : SpeakerScore) :
    (addScore m s).map Prod.fst =
      if s.speaker ∈ m.map Prod.fst then m.map Prod.fst
      else m.map Prod.fst ++ [s.speaker] := by
  induction m with
  | nil => simp [addScore]
  | cons kv rest ih =>
    rw [addScore]
    split
    · rename_i heq
      simp [heq]
    · rename_i hne
      simp only [List.map_cons, ih]
      by_cases hw : s.speaker ∈ rest.map Prod.fst
      · rw [if_pos hw, if_pos (List.mem_cons_of_mem kv.1 hw)]
      · rw [if_neg hw, if_neg ?_, List.cons_append]
        intro hmem
        rcases List.mem_cons.mp hmem with h0 | h0
        · exact hne h0.symm
        · exact hw h0

theorem foldl_addScore_nodupKeys (l : List SpeakerScore) :
    ∀ m : List (String × ScoreLists), (m.map Prod.fst).Nodup →
      ((l.foldl addScore m).map Prod.fst).Nodup := by
  induction l with
  | nil =>
    intro m hm
    simpa using hm
  | cons s l ih =>
    intro m hm
    rw [List.foldl_cons]
    refine ih _ ?_
    rw [addScore_keys]
    split
    · exact hm
    · rename_i hmem
      exact (List.perm_append_singleton _ _).nodup_iff.mpr
        (List.nodup_cons.mpr ⟨hmem, hm⟩)

theorem mem_of_lookup_eq_some {m : List (String × ScoreLists)} {sp : String}
    {sl : ScoreLists} (h : List.lookup sp m = some sl) : (sp, sl) ∈ m := by
  induction m with
  | nil => simp at h
  | cons kv rest ih =>
    obtain ⟨k, sl0⟩ := kv
    rw [List.lookup_cons] at h
    rcases hbeq : sp == k with _ | _
    · rw [hbeq] at h
      exact List.mem_cons_of_mem _ (ih h)
    · rw [hbeq] at h
      have hk : sp = k := beq_iff_eq.mp hbeq
      injection h with h0
      rw [← hk, ← h0]
      exact List.mem_cons_self _ _

theorem lookup_of_mem_nodup {m : List (String × ScoreLists)} {sp : String}
    {sl : ScoreLists} (h : (sp, sl) ∈ m) (hnd : (m.map Prod.fst).Nodup) :
    List.lookup sp m = some sl := by
  induction m with
  | nil => simp at h
  | cons kv rest ih =>
    obtain ⟨k, sl0⟩ := kv
    rw [List.lookup_cons]
    rw [List.map_cons] at hnd
    rcases List.mem_cons.mp h with h0 | h0
    · injection h0 with h1 h2
      rw [h1, h2]
      simp
    · have hk : sp ≠ k := by
        intro h1
        have : sp ∈ rest.map Prod.fst := List.mem_map.mpr ⟨(sp, sl), h0, rfl⟩
        rw [h1] at this
        exact (List.nodup_cons.mp hnd).1 this
      have hbeq : (sp == k) = false := beq_eq_false_iff_ne.mpr hk
      rw [hbeq]
      exact ih h0 (List.nodup_cons.mp hnd).2

set_option maxHeartbeats 1000000 in
/-- C8: for every speaker appearing in at least one successful
judgment scores list, `averageScores` contains exactly one entry for
that speaker, and each of argumentation, evidence, delivery, rebuttal
and total in that entry is the arithmetic mean of the field over
exactly the score records naming that speaker, rounded to one decimal
place (`Math.round` of ten times the mean, divided by ten). -/
theorem c8_averageScores (js : List IndividualJudgment) (fj : Nat) (sp : String)
    (hsp : (js.flatMap (fun j => j.evaluation.scores)).filter
      (fun t => t.speaker == sp) ≠ []) :
    ∃ e, e ∈ (aggregateVerdict js fj).averageScores ∧ e.speaker = sp ∧
      (∀ e2 ∈ (aggregateVerdict js fj).averageScores, e2.speaker = sp → e2 = e) ∧
      (∀ f : SpeakerScore → ℚ,
        (f = SpeakerScore.argumentation ∨ f = SpeakerScore.evidence ∨
          f = SpeakerScore.delivery ∨ f = SpeakerScore.rebuttal ∨
          f = SpeakerScore.total) →
        f e = roundTo1
          ((((js.flatMap (fun j => j.evaluation.scores)).filter
              (fun t => t.speaker == sp)).map f).sum /
            ((((js.flatMap (fun j => j.evaluation.scores)).filter
              (fun t => t.speaker == sp)).map f).length : ℚ))) := by
  have hchar := lookup_foldl_addScore sp (js.flatMap (fun j => j.evaluation.scores))
  rw [if_neg hsp] at hchar
  have hlookup : List.lookup sp (scoresBySpeakOf js) = some
      ⟨((js.flatMap (fun j => j.evaluation.scores)).filter
          (fun t => t.speaker == sp)).map SpeakerScore.argumentation,
        ((js.flatMap (fun j => j.evaluation.scores)).filter
          (fun t => t.speaker == sp)).map SpeakerScore.evidence,
        ((js.flatMap (fun j => j.evaluation.scores)).filter
          (fun t => t.speaker == sp)).map SpeakerScore.delivery,
        ((js.flatMap (fun j => j.evaluation.scores)).filter
          (fun t => t.speaker == sp)).map SpeakerScore.rebuttal,
        ((js.flatMap (fun j => j.evaluation.scores)).filter
          (fun t => t.speaker == sp)).map SpeakerScore.total⟩ := by
    rw [scoresBySpeakOf_flat]
    exact hchar
  have hmem := mem_of_lookup_eq_some hlookup
  have hnd : ((scoresBySpeakOf js).map Prod.fst).Nodup := by
    rw [scoresBySpeakOf_flat]
    exact foldl_addScore_nodupKeys _ [] (by simp)
  have hpos : 0 < ((js.flatMap (fun j => j.evaluation.scores)).filter
      (fun t => t.speaker == sp)).length :=
    List.length_pos.mpr hsp
  have havg : ∀ xs : List ℚ, xs.length =
      ((js.flatMap (fun j => j.evaluation.scores)).filter
        (fun t => t.speaker == sp)).length →
      avg xs = xs.sum / (xs.length : ℚ) := by
    intro xs hxs
    rw [avg, if_pos (by rw [hxs]; exact hpos)]
  refine ⟨⟨sp,
    roundTo1 (avg (((js.flatMap (fun j => j.evaluation.scores)).filter
      (fun t => t.speaker == sp)).map SpeakerScore.argumentation)),
    roundTo1 (avg (((js.flatMap (fun j => j.evaluation.scores)).filter
      (fun t => t.speaker == sp)).map SpeakerScore.evidence)),
    roundTo1 (avg (((js.flatMap (fun j => j.evaluation.scores)).filter
      (fun t => t.speaker == sp)).map SpeakerScore.delivery)),
    roundTo1 (avg (((js.flatMap (fun j => j.evaluation.scores)).filter
      (fun t => t.speaker == sp)).map SpeakerScore.rebuttal)),
    roundTo1 (avg (((js.flatMap (fun j => j.evaluation.scores)).filter
      (fun t => t.speaker == sp)).map SpeakerScore.total))⟩,
    ?_, rfl, ?_, ?_⟩
  · show _ ∈ averageScoresOf js
    rw [averageScoresOf]
    exact List.mem_map.mpr ⟨_, hmem, rfl⟩
  · intro e2 he2 hsp2
    rcases List.mem_map.mp he2 with ⟨kv, hkv, hkve⟩
    have hkey : kv.1 = sp := by
      rw [← hkve] at hsp2
      exact hsp2
    have hkv2 : (sp, kv.2) ∈ scoresBySpeakOf js := by
      rw [← hkey]
      exact hkv
    have hlk := lookup_of_mem_nodup hkv2 hnd
    rw [hlookup] at hlk
    injection hlk with hsl
    rw [← hkve]
    show SpeakerScore.mk kv.1 (roundTo1 (avg kv.2.argumentation))
      (roundTo1 (avg kv.2.evidence)) (roundTo1 (avg kv.2.delivery))
      (roundTo1 (avg kv.2.rebuttal)) (roundTo1 (avg kv.2.total)) = _
    rw [hkey, ← hsl]
  · intro f hf
    rcases hf with rfl | rfl | rfl | rfl | rfl <;>
      · dsimp only
        rw [havg _ (by simp)]

/-- Witness for C8: a speaker scored 8, 9 and 7 on argumentation
across three judgments averages to exactly 8. -/
theorem c8_averageScores_witness :
    ((jsArg897.flatMap (fun j => j.evaluation.scores)).filter
      (fun t => t.speaker == "A") ≠ []) ∧
    (∃ e, e ∈ (aggregateVerdict jsArg897 0).averageScores ∧ e.speaker = "A" ∧
      (∀ e2 ∈ (aggregateVerdict jsArg897 0).averageScores,
        e2.speaker = "A" → e2 = e) ∧
      (∀ f : SpeakerScore → ℚ,
        (f = SpeakerScore.argumentation ∨ f = SpeakerScore.evidence ∨
          f = SpeakerScore.delivery ∨ f = SpeakerScore.rebuttal ∨
          f = SpeakerScore.total) →
        f e = roundTo1
          ((((jsArg897.flatMap (fun j => j.evaluation.scores)).filter
              (fun t => t.speaker == "A")).map f).sum /
            ((((jsArg897.flatMap (fun j => j.evaluation.scores)).filter
              (fun t => t.speaker == "A")).map f).length : ℚ)))) ∧
    (aggregateVerdict jsArg897 0).averageScores.map
      (fun e => (e.speaker, e.argumentation)) = [("A", 8)] :=
  ⟨by decide, c8_averageScores jsArg897 0 "A" (by decide), by decide⟩

/-- Counterexample to C4 as stated: with votes A, A, B, average
argumentation 5 for the winner A and 7 for the runner-up B, the claim
requires the "overall performance" clause (5 does not exceed 7), but
the summary says "argumentation": in the source condition
`a ?? 0 > b`, the `>` binds tighter than `??`, so the comparison with
the runner-up never happens and any nonzero winner average selects
"argumentation". -/
theorem c4_counterexample :
    (aggregateVerdict jsSplitAB 0).unanimity = false ∧
    (aggregateVerdict jsSplitAB 0).averageScores.map
      (fun e => (e.speaker, e.argumentation)) = [("A", 5), ("B", 7)] ∧
    (aggregateVerdict jsSplitAB 0).finalWinner = "A" ∧
    ¬ ((5 : ℚ) > 7) ∧
    (aggregateVerdict jsSplitAB 0).consensusSummary =
      "The council voted 2-1 in favor of A. The decision was based on superior " ++
        "argumentation" ++ " across the evaluated criteria." :=
  ⟨by decide, by decide, by decide, by decide, by decide⟩

/-- C4 (amended): for at least 2 successful judgments with a
non-unanimous vote, the consensus summary states the vote split as
winnerVotes-(totalVotes - winnerVotes) and carries a clause that is
either "argumentation" or "overall performance"; but because `>` binds
tighter than `??` in the source, the clause is "argumentation" exactly
when the JavaScript-truthy value of
`winnerArg ?? (0 > (runnerUpArg ?? 0))` holds — i.e. when the winner
has an average-scores entry with nonzero argumentation, or has no
entry and 0 exceeds the first other entry (never, for nonnegative
scores) — not when the average argumentation of the winner exceeds
that of the runner-up. -/
theorem c4_consensusSummary (js : List IndividualJudgment) (fj : Nat)
    (hnu : (aggregateVerdict js fj).unanimity = false) :
    ((aggregateVerdict js fj).consensusSummary =
      "The council voted " ++
        toString (((voteMapOf js).lookup
          (aggregateVerdict js fj).finalWinner).getD 0) ++ "-" ++
        toString (js.length - (((voteMapOf js).lookup
          (aggregateVerdict js fj).finalWinner).getD 0)) ++
        " in favor of " ++ (aggregateVerdict js fj).finalWinner ++
        ". The decision was based on superior " ++
        argClause (averageScoresOf js) (aggregateVerdict js fj).finalWinner ++
        " across the evaluated criteria." ++ failedNoteOf fj) ∧
    (argClause (averageScoresOf js) (aggregateVerdict js fj).finalWinner =
        "argumentation" ∨
      argClause (averageScoresOf js) (aggregateVerdict js fj).finalWinner =
        "overall performance") ∧
    (argClause (averageScoresOf js) (aggregateVerdict js fj).finalWinner =
        "argumentation" ↔
      match ((averageScoresOf js).find?
          (fun s => s.speaker == (aggregateVerdict js fj).finalWinner)).map
          SpeakerScore.argumentation with
      | some a => a ≠ 0
      | none => (0 : ℚ) > (((averageScoresOf js).find?
          (fun s => !(s.speaker ==
            (aggregateVerdict js fj).finalWinner))).map
          SpeakerScore.argumentation).getD 0) := by
  refine ⟨?_, ?_, ?_⟩
  · have h1 : (aggregateVerdict js fj).consensusSummary =
        consensusSummaryOf (aggregateVerdict js fj).unanimity
          (aggregateVerdict js fj).finalWinner
          (((voteMapOf js).lookup (aggregateVerdict js fj).finalWinner).getD 0)
          js.length (averageScoresOf js) fj := rfl
    rw [h1, hnu, consensusSummaryOf]
    simp only [Bool.false_eq_true, if_false]
  · simp only [argClause]
    split
    · exact Or.inl rfl
    · exact Or.inr rfl
  · simp only [argClause]
    cases hf : ((averageScoresOf js).find?
        (fun s => s.speaker == (aggregateVerdict js fj).finalWinner)).map
        SpeakerScore.argumentation with
    | none =>
      simp only [hf]
      by_cases hgt : (0 : ℚ) > (((averageScoresOf js).find?
          (fun s => !(s.speaker ==
            (aggregateVerdict js fj).finalWinner))).map
          SpeakerScore.argumentation).getD 0
      · simp [hgt]
      · simp [hgt]
    | some a =>
      simp only [hf]
      by_cases ha : a = 0
      · simp [ha]
      · simp [ha]

/-- Witness for C4 (amended) at the 2-1 split A, A, B. -/
theorem c4_consensusSummary_witness :
    (aggregateVerdict jsSplitAB 0).unanimity = false ∧
    (aggregateVerdict jsSplitAB 0).consensusSummary =
      "The council voted " ++
        toString (((voteMapOf jsSplitAB).lookup
          (aggregateVerdict jsSplitAB 0).finalWinner).getD 0) ++ "-" ++
        toString (jsSplitAB.length - (((voteMapOf jsSplitAB).lookup
          (aggregateVerdict jsSplitAB 0).finalWinner).getD 0)) ++
        " in favor of " ++ (aggregateVerdict jsSplitAB 0).finalWinner ++
        ". The decision was based on superior " ++
        argClause (averageScoresOf jsSplitAB)
          (aggregateVerdict jsSplitAB 0).finalWinner ++
        " across the evaluated criteria." ++ failedNoteOf 0 :=
  ⟨by decide, (c4_consensusSummary jsSplitAB 0 (by decide)).1⟩

/-- C1 (code bug): two verdicts that differ only in the confidence of
an individual judgment serialize to the same canonical byte form — the
array second argument that `hashVerdict` passes to `JSON.stringify` is
a property whitelist applied at every nesting level, so every nested
object (judgments, evaluations, scores, vote counts) serializes as an
empty object — hence the 256-bit hash cannot change, contradicting the
claim that changing any scalar field, in particular a confidence,
changes the hash. -/
theorem c1_hashVerdict_code_bug :
    verdictConf 90 ≠ verdictConf 10 ∧
    (verdictConf 90).individualJudgments.map
      (fun j => j.evaluation.confidence) = [90] ∧
    (verdictConf 10).individualJudgments.map
      (fun j => j.evaluation.confidence) = [10] ∧
    canonicalVerdictJson (verdictConf 90) =
      "\x7b\"averageScores\":[\x7b\x7d],\"consensusSummary\":\"s\",\"finalWinner\":\"A\",\"individualJudgments\":[\x7b\x7d],\"unanimity\":false,\"voteCount\":\x7b\x7d\x7d" ∧
    canonicalVerdictJson (verdictConf 90) = canonicalVerdictJson (verdictConf 10) ∧
    ∀ keccak : String → String,
      hashVerdict keccak (verdictConf 90) = hashVerdict keccak (verdictConf 10) := by
  refine ⟨by decide, by decide, by decide, by decide, by decide, ?_⟩
  intro keccak
  unfold hashVerdict
  rw [show canonicalVerdictJson (verdictConf 90) =
    canonicalVerdictJson (verdictConf 10) from by decide]

/-- C2: verification recomputes the canonical hash exactly as signing
does and compares it to the supplied hash case-insensitively; on a
mismatch it returns the structured failure without consulting the
signature check at all; on a match the result is valid exactly when
the external check against the process-held signer succeeds and the
claimed signer equals that signer case-insensitively; and an error
raised by the underlying check also yields a structured result — the
function is total and never throws. -/
theorem c2_verifySignedVerdict (keccak signMsg : String → String)
    (addr : String)
    (verifyMsg verifyMsg2 : String → String → String → Except String Bool)
    (v : CouncilVerdict) (hash signature claimedSigner : String) (now : Nat) :
    ((signVerdict keccak signMsg addr now v).hash = hashVerdict keccak v) ∧
    ((verifySignedVerdict keccak addr verifyMsg v hash signature
        claimedSigner).hashMatch =
      (toLowerStr (hashVerdict keccak v) == toLowerStr hash)) ∧
    (toLowerStr (hashVerdict keccak v) ≠ toLowerStr hash →
      verifySignedVerdict keccak addr verifyMsg v hash signature claimedSigner =
        ⟨false, addr, none, false⟩ ∧
      verifySignedVerdict keccak addr verifyMsg v hash signature claimedSigner =
        verifySignedVerdict keccak addr verifyMsg2 v hash signature
          claimedSigner) ∧
    (toLowerStr (hashVerdict keccak v) = toLowerStr hash →
      ((verifySignedVerdict keccak addr verifyMsg v hash signature
          claimedSigner).valid = true ↔
        (verifyMsg addr hash signature = .ok true ∧
          toLowerStr claimedSigner = toLowerStr addr)) ∧
      (∀ msg, verifyMsg addr hash signature = .error msg →
        verifySignedVerdict keccak addr verifyMsg v hash signature
          claimedSigner = ⟨false, addr, none, true⟩)) := by
  refine ⟨rfl, ?_, ?_, ?_⟩
  · simp only [verifySignedVerdict]
    cases hab : (toLowerStr (hashVerdict keccak v) == toLowerStr hash)
    · simp
    · simp only [if_true]
      cases hc : verifyMsg addr hash signature <;> simp
  · intro h
    have hab : (toLowerStr (hashVerdict keccak v) == toLowerStr hash) = false :=
      beq_eq_false_iff_ne.mpr h
    have hres : ∀ vm : String → String → String → Except String Bool,
        verifySignedVerdict keccak addr vm v hash signature claimedSigner =
          ⟨false, addr, none, false⟩ := by
      intro vm
      simp [verifySignedVerdict, hab]
    exact ⟨hres verifyMsg, (hres verifyMsg).trans (hres verifyMsg2).symm⟩
  · intro h
    have hab : (toLowerStr (hashVerdict keccak v) == toLowerStr hash) = true :=
      beq_iff_eq.mpr h
    simp only [verifySignedVerdict, hab, if_true]
    constructor
    · cases hc : verifyMsg addr hash signature with
      | ok b =>
        simp [Bool.and_eq_true, beq_iff_eq]
      | error e =>
        simp
    · intro msg hc
      rw [hc]

/-- Witness for C2 at a matching hash, a succeeding signature check
and a claimed signer differing from the configured signer only in
case. -/
theorem c2_verifySignedVerdict_witness :
    toLowerStr (hashVerdict (fun s => s) (verdictConf 90)) =
      toLowerStr (hashVerdict (fun s => s) (verdictConf 90)) ∧
    ((verifySignedVerdict (fun s => s) "0xAB" (fun _ _ _ => .ok true)
        (verdictConf 90) (hashVerdict (fun s => s) (verdictConf 90)) "sig"
        "0xab").valid = true ↔
      ((fun _ _ _ => (.ok true : Except String Bool)) "0xAB"
          (hashVerdict (fun s => s) (verdictConf 90)) "sig" = .ok true ∧
        toLowerStr "0xab" = toLowerStr "0xAB")) :=
  ⟨rfl, ((c2_verifySignedVerdict (fun s => s) (fun s => s) "0xAB"
      (fun _ _ _ => .ok true) (fun _ _ _ => .ok true) (verdictConf 90)
      (hashVerdict (fun s => s) (verdictConf 90)) "sig" "0xab" 0).2.2.2 rfl).1⟩

/-- C9: every successful chunk transcription is tagged with its
original chunk index — the tagged results of the chunks carry indices
0, 1, … in submission order — and after sorting by that index the
concatenated output text is the same for every completion order of the
chunk calls; in particular a reversed completion order yields the same
text as submission order. -/
theorem c9_transcription_order_invariance (f : List Nat → String)
    (chunks : List (List Nat)) (arrived : List TaggedText)
    (hperm : arrived.Perm (tagChunks f chunks 0)) :
    (tagChunks f chunks 0).map TaggedText.index = List.range' 0 chunks.length ∧
    joinedTranscript arrived = joinedTranscript (tagChunks f chunks 0) := by
  have hidx := tagChunks_map_index f chunks 0
  have hnd : ((tagChunks f chunks 0).map TaggedText.index).Nodup := by
    rw [hidx]
    exact List.nodup_range' 0 chunks.length
  refine ⟨hidx, ?_⟩
  unfold joinedTranscript
  rw [sortByIndex_eq_of_perm arrived (tagChunks f chunks 0) hperm hnd]

/-- Witness for C9: completing three chunks in reversed order yields
the same joined transcript as submission order. -/
theorem c9_transcription_order_invariance_witness :
    ((tagChunks c9transcribe c9chunks 0).reverse).Perm
      (tagChunks c9transcribe c9chunks 0) ∧
    joinedTranscript ((tagChunks c9transcribe c9chunks 0).reverse) =
      joinedTranscript (tagChunks c9transcribe c9chunks 0) :=
  ⟨(tagChunks c9transcribe c9chunks 0).reverse_perm,
   (c9_transcription_order_invariance c9transcribe c9chunks _
      (tagChunks c9transcribe c9chunks 0).reverse_perm).2⟩

/-- Witness for C10 at a 7-byte buffer and chunk size 3. -/
theorem c10_splitAudioIntoChunks_witness :
    1 ≤ 3 ∧
    ((splitAudioIntoChunks [1, 2, 3, 4, 5, 6, 7] 3).flatten = [1, 2, 3, 4, 5, 6, 7] ∧
      (∀ c ∈ (splitAudioIntoChunks [1, 2, 3, 4, 5, 6, 7] 3).dropLast, c.length = 3) ∧
      (∀ c, (splitAudioIntoChunks [1, 2, 3, 4, 5, 6, 7] 3).getLast? = some c →
        1 ≤ c.length ∧ c.length ≤ 3) ∧
      splitAudioIntoChunks [] 3 = []) :=
  ⟨by decide, c10_splitAudioIntoChunks [1, 2, 3, 4, 5, 6, 7] 3 (by decide)⟩

end DebateJudge
